import Mathlib

/-!
Shallow embedding of the draft timeline construction and mutation engine of
`src/server/service.py` (video-editing-prototype).  Paths are modelled as
lists of components, durations as integers in the fixed sub-second unit,
the filesystem as a total function from paths to a path kind, and media
metadata (durations, unreadability) as total functions supplied by a
`World`.  Fallible code returns `Except JobErr`; flows additionally record
the ordered trace of draft-level effects (`Event`) they perform.
-/

/-- A filesystem path, as a list of components (models `pathlib.Path`). -/
abbrev MPath := List String

/-- What the filesystem holds at a path: a regular file, a directory,
nothing, or a state in which queries raise `OSError`. -/
inductive PathKind
  | file
  | dir
  | absent
  | ioErr
deriving DecidableEq

/-- Semantics of `Path.exists()`: true for files and directories.  (The `ioErr` case, in
which CPython may re-raise, is treated as existing here; no modelled call
site distinguishes it except the garbage collector, which has its own
`try/except OSError` and is modelled separately.) -/
def existsK : PathKind → Bool
  | .absent => false
  | _ => true

/-- Domain-level failures (`JobError` / `FileExistsError` in the source),
one constructor per distinct raise site the model reaches. -/
inductive JobErr
  | invalidDraftsRoot
  | assetNotFound
  | assetNotAFile
  | badOutputPath
  | mediaUnreadable
  | emptyTimeline
  | templateDirNotFound
  | draftAlreadyExists
  | draftJsonMissing
  | templatePathNotFound
  | trackIndexOutOfRange
  | segmentDurationMissing
  | exportFailed
deriving DecidableEq

/-- The `Timerange(start, duration)` value type from pyJianYingDraft. -/
structure Timerange where
  start : Int
  duration : Int
deriving DecidableEq

/-- The ambient state the service reads: filesystem shape, per-file media
duration (`VideoMaterial(...).duration`), whether loading a media file
raises (`VideoMaterial` constructor failure), whether the external export
step fails, and the video tracks of the template's `draft_content.json`
(each a list of per-segment `target_timerange.duration` values, `none`
when the field is missing). -/
structure World where
  fs : MPath → PathKind
  matDur : MPath → Int
  loadFails : MPath → Bool
  exportFails : Bool
  tplVideoTracks : List (List (Option Int))

/-- The per-asset usable duration: the resolved duration clipped to the
optional cap (`usable_duration = min(usable_duration, clip_limit)` in
`concat_videos`; no cap in `_append_assets_as_track`). -/
def usableDur : Option Int → Int → Int
  | none, d => d
  | some c, d => min d c

/-- The shared append loop of `concat_videos` (lines 72-94, with a cap) and
`_append_assets_as_track` (lines 395-402, cap `none`): walk the assets in
input order, skip those with usable duration ≤ 0, append a segment at the
cursor otherwise, and advance the cursor.  Returns the appended segments'
target timeranges and, unless a material fails to load, the final cursor. -/
def concatLoop (w : World) (cap : Option Int) : List MPath → Int → List Timerange × Except JobErr Int
  | [], cursor => ([], .ok cursor)
  | p :: rest, cursor =>
    if w.loadFails p then ([], .error .mediaUnreadable)
    else
      let u := usableDur cap (w.matDur p)
      if u ≤ 0 then concatLoop w cap rest cursor
      else
        let out := concatLoop w cap rest (cursor + u)
        (⟨cursor, u⟩ :: out.1, out.2)

/-- The segments are laid out back-to-back starting at the given cursor:
each segment starts where the previous one ended. -/
def Contiguous : Int → List Timerange → Prop
  | _, [] => True
  | c, s :: rest => s.start = c ∧ Contiguous (c + s.duration) rest

lemma concatLoop_spec (w : World) (cap : Option Int) :
    ∀ (paths : List MPath) (cursor : Int),
      (∀ p ∈ paths, w.loadFails p = false) →
      (concatLoop w cap paths cursor).1.map (fun s => s.duration) =
        (paths.map (fun p => usableDur cap (w.matDur p))).filter (fun u => decide (0 < u)) ∧
      (concatLoop w cap paths cursor).2 =
        .ok (cursor + ((concatLoop w cap paths cursor).1.map (fun s => s.duration)).sum) ∧
      Contiguous cursor (concatLoop w cap paths cursor).1 ∧
      (∀ s ∈ (concatLoop w cap paths cursor).1, 0 < s.duration) := by
  intro paths
  induction paths with
  | nil => intro cursor _; refine ⟨rfl, by simp [concatLoop], trivial, by simp [concatLoop]⟩
  | cons p rest ih =>
    intro cursor hload
    have hp : w.loadFails p = false := hload p (List.mem_cons_self _ _)
    have hrest : ∀ q ∈ rest, w.loadFails q = false :=
      fun q hq => hload q (List.mem_cons_of_mem _ hq)
    by_cases hu : usableDur cap (w.matDur p) ≤ 0
    · have hrec := ih cursor hrest
      have heq : concatLoop w cap (p :: rest) cursor = concatLoop w cap rest cursor := by
        simp [concatLoop, hp, hu]
      rw [heq]
      refine ⟨?_, hrec.2.1, hrec.2.2.1, hrec.2.2.2⟩
      rw [hrec.1]
      simp [List.filter_cons, not_lt.mpr hu]
    · push_neg at hu
      have hrec := ih (cursor + usableDur cap (w.matDur p)) hrest
      have heq : concatLoop w cap (p :: rest) cursor =
          (⟨cursor, usableDur cap (w.matDur p)⟩ ::
            (concatLoop w cap rest (cursor + usableDur cap (w.matDur p))).1,
           (concatLoop w cap rest (cursor + usableDur cap (w.matDur p))).2) := by
        simp [concatLoop, hp, not_le.mpr hu]
      rw [heq]
      refine ⟨?_, ?_, ?_, ?_⟩
      · simp only [List.map_cons, List.filter_cons]
        rw [hrec.1]
        simp [hu]
      · rw [hrec.2.1]
        simp only [List.map_cons, List.sum_cons]
        congr 1
        ring
      · exact ⟨rfl, hrec.2.2.1⟩
      · intro s hs
        rcases List.mem_cons.mp hs with rfl | hs
        · exact hu
        · exact hrec.2.2.2 s hs

lemma contiguous_le_start (segs : List Timerange) :
    ∀ c : Int, Contiguous c segs → (∀ s ∈ segs, 0 < s.duration) →
      ∀ s ∈ segs, c ≤ s.start := by
  induction segs with
  | nil => intro c _ _ s hs; cases hs
  | cons a rest ih =>
    intro c hc hpos s hs
    rcases List.mem_cons.mp hs with rfl | hs
    · exact le_of_eq hc.1.symm
    · have := ih (c + a.duration) hc.2 (fun t ht => hpos t (List.mem_cons_of_mem _ ht)) s hs
      have ha : 0 < a.duration := hpos a (List.mem_cons_self _ _)
      omega

lemma contiguous_strict_mono (segs : List Timerange) :
    ∀ c : Int, Contiguous c segs → (∀ s ∈ segs, 0 < s.duration) →
      (segs.map (fun s => s.start)).Pairwise (· < ·) := by
  induction segs with
  | nil => intro _ _ _; exact List.Pairwise.nil
  | cons a rest ih =>
    intro c hc hpos
    have hposr : ∀ s ∈ rest, 0 < s.duration :=
      fun t ht => hpos t (List.mem_cons_of_mem _ ht)
    refine List.Pairwise.cons ?_ (ih (c + a.duration) hc.2 hposr)
    intro x hx
    rcases List.mem_map.mp hx with ⟨s, hs, rfl⟩
    have hle := contiguous_le_start rest (c + a.duration) hc.2 hposr s hs
    have ha : 0 < a.duration := hpos a (List.mem_cons_self _ _)
    have hac : a.start = c := hc.1
    show a.start < s.start
    omega

/-- C1. For every asset list whose materials all load, the append loop
(shared by the concat flow and the fill flow's append step) processes
assets in input order: the appended segments' durations are exactly the
positive capped usable durations in input order, every appended duration
is positive, the target ranges are contiguous from cursor 0 (hence target
offsets strictly increasing), and the final cursor equals the sum of the
appended durations. -/
theorem concat_build_correct (w : World) (cap : Option Int) (paths : List MPath)
    (hload : ∀ p ∈ paths, w.loadFails p = false) :
    (concatLoop w cap paths 0).1.map (fun s => s.duration) =
      (paths.map (fun p => usableDur cap (w.matDur p))).filter (fun u => decide (0 < u)) ∧
    (concatLoop w cap paths 0).2 =
      .ok (((concatLoop w cap paths 0).1.map (fun s => s.duration)).sum) ∧
    Contiguous 0 (concatLoop w cap paths 0).1 ∧
    (∀ s ∈ (concatLoop w cap paths 0).1, 0 < s.duration) ∧
    ((concatLoop w cap paths 0).1.map (fun s => s.start)).Pairwise (· < ·) := by
  obtain ⟨h1, h2, h3, h4⟩ := concatLoop_spec w cap paths 0 hload
  refine ⟨h1, by simpa using h2, h3, h4, contiguous_strict_mono _ 0 h3 h4⟩

/-- Witness for C1 at a concrete world: two loadable assets of durations 3
and 5 with cap 4 produce segments [0,3) and [3,4), final cursor 7. -/
theorem concat_build_correct_witness :
    (∀ p ∈ [["a"], ["b"]], (World.mk (fun _ => .file) (fun p => if p = [["a"]].head! then 3 else 5)
        (fun _ => false) false []).loadFails p = false) ∧
    Contiguous 0 (concatLoop (World.mk (fun _ => .file) (fun p => if p = [["a"]].head! then 3 else 5)
        (fun _ => false) false []) (some 4) [["a"], ["b"]] 0).1 := by
  have h := concat_build_correct
    (World.mk (fun _ => .file) (fun p => if p = [["a"]].head! then 3 else 5)
      (fun _ => false) false []) (some 4) [["a"], ["b"]] (by decide)
  exact ⟨by decide, h.2.2.1⟩

/-- One entry of `payload.replacements` (`models.TemplateReplacement`):
a target segment index (validated `ge=0`) and a replacement media path. -/
structure TemplateReplacement where
  segment_index : Nat
  path : MPath
deriving DecidableEq

/-- One applied substitution: a call
`replace_material_by_seg(track, segment_index, material,
source_timerange=Timerange(offset, use_duration), ...)` recorded with the
path of the substituted material and its source range. -/
structure Substitution where
  segment_index : Nat
  path : MPath
  source : Timerange
deriving DecidableEq

/-- Running state of the replacement loop of `template_replace` (service.py
lines 132-159): per-asset consumption offsets (`material_offsets`; a path
not yet seen has offset 0, matching the dict initialisation on first
sight), the indices collected in `segments_to_remove`, and the
substitutions applied so far, in application order. -/
structure ReplaceState where
  offsets : MPath → Int
  removals : List Nat
  subs : List Substitution

def initReplaceState : ReplaceState := ⟨fun _ => 0, [], []⟩

/-- One iteration of the replacement loop (service.py lines 136-159):
`_ensure_media_file`, `_load_material` (cached per path; failure behaviour
is path-determined so caching is observationally irrelevant), duration
lookup, then either mark the segment for removal (asset exhausted) or
substitute with source range `[offset, offset+use)` and advance the
offset. -/
def replaceStep (w : World) (durMap : Nat → Option Int) (st : ReplaceState)
    (rep : TemplateReplacement) : Except JobErr ReplaceState :=
  if existsK (w.fs rep.path) = false then .error .assetNotFound
  else if w.fs rep.path ≠ .file then .error .assetNotAFile
  else if w.loadFails rep.path then .error .mediaUnreadable
  else
    match durMap rep.segment_index with
    | none => .error .segmentDurationMissing
    | some target =>
      let offset := st.offsets rep.path
      let remaining := w.matDur rep.path - offset
      if remaining ≤ 0 then
        .ok { st with removals := st.removals ++ [rep.segment_index] }
      else
        let use := min target remaining
        .ok { st with
          subs := st.subs ++ [⟨rep.segment_index, rep.path, ⟨offset, use⟩⟩],
          offsets := fun q => if q = rep.path then offset + use else st.offsets q }

/-- The replacement loop over an already-sorted replacement list; on a
step failure the state reached so far is returned alongside the error
(the exception propagates out of the Python loop with the prior
mutations already applied). -/
def replaceLoop (w : World) (durMap : Nat → Option Int) :
    List TemplateReplacement → ReplaceState → ReplaceState × Option JobErr
  | [], st => (st, none)
  | rep :: rest, st =>
    match replaceStep w durMap st rep with
    | .error e => (st, some e)
    | .ok st' => replaceLoop w durMap rest st'

/-- Model of `sorted(payload.replacements, key=lambda item: item.segment_index)`:
ascending segment-index order, ties kept in input order (Python's sort is
stable, as is `List.insertionSort`). -/
def sortReplacements (reps : List TemplateReplacement) : List TemplateReplacement :=
  reps.insertionSort (fun a b => a.segment_index ≤ b.segment_index)

/-- The whole replacement pass of `template_replace`: sort by segment
index, then run the loop from the initial state. -/
def replaceRun (w : World) (durMap : Nat → Option Int)
    (reps : List TemplateReplacement) : ReplaceState × Option JobErr :=
  replaceLoop w durMap (sortReplacements reps) initReplaceState

lemma replaceStep_subs_bound (w : World) (durMap : Nat → Option Int)
    (st st' : ReplaceState) (rep : TemplateReplacement)
    (hstep : replaceStep w durMap st rep = .ok st')
    (hinv : ∀ sub ∈ st.subs, sub.source.start + sub.source.duration ≤ w.matDur sub.path) :
    ∀ sub ∈ st'.subs, sub.source.start + sub.source.duration ≤ w.matDur sub.path := by
  unfold replaceStep at hstep
  split at hstep
  · exact absurd hstep (by simp)
  split at hstep
  · exact absurd hstep (by simp)
  split at hstep
  · exact absurd hstep (by simp)
  split at hstep
  · exact absurd hstep (by simp)
  next target _ =>
    dsimp only at hstep
    split at hstep
    · cases hstep
      exact hinv
    · next hrem =>
      cases hstep
      intro sub hsub
      rcases List.mem_append.mp hsub with hsub | hsub
      · exact hinv sub hsub
      · rcases List.mem_singleton.mp hsub with rfl
        show st.offsets rep.path + min target (w.matDur rep.path - st.offsets rep.path) ≤
          w.matDur rep.path
        have := min_le_right target (w.matDur rep.path - st.offsets rep.path)
        omega

lemma replaceLoop_subs_bound (w : World) (durMap : Nat → Option Int) :
    ∀ (reps : List TemplateReplacement) (st : ReplaceState),
      (∀ sub ∈ st.subs, sub.source.start + sub.source.duration ≤ w.matDur sub.path) →
      ∀ sub ∈ (replaceLoop w durMap reps st).1.subs,
        sub.source.start + sub.source.duration ≤ w.matDur sub.path := by
  intro reps
  induction reps with
  | nil => intro st hinv; exact hinv
  | cons rep rest ih =>
    intro st hinv
    show ∀ sub ∈ (replaceLoop w durMap (rep :: rest) st).1.subs, _
    unfold replaceLoop
    cases hstep : replaceStep w durMap st rep with
    | error e => exact hinv
    | ok st' => exact ih st' (replaceStep_subs_bound w durMap st st' rep hstep hinv)

/-- C3.  First part: every substitution applied by the replacement pass has
`offset + use ≤ materialDuration` — no source range extends beyond the
replacement asset's actual duration.  Second part: when an asset is
exhausted (`remaining ≤ 0`), the step marks the segment index for removal
and returns successfully with the consumption offset not advanced, rather
than raising. -/
theorem replace_respects_material_duration :
    (∀ (w : World) (durMap : Nat → Option Int) (reps : List TemplateReplacement)
        (sub : Substitution), sub ∈ (replaceRun w durMap reps).1.subs →
        sub.source.start + sub.source.duration ≤ w.matDur sub.path) ∧
    (∀ (w : World) (durMap : Nat → Option Int) (st : ReplaceState)
        (rep : TemplateReplacement) (target : Int),
        w.fs rep.path = .file → w.loadFails rep.path = false →
        durMap rep.segment_index = some target →
        w.matDur rep.path - st.offsets rep.path ≤ 0 →
        replaceStep w durMap st rep =
          .ok { st with removals := st.removals ++ [rep.segment_index] }) := by
  constructor
  · intro w durMap reps sub hsub
    exact replaceLoop_subs_bound w durMap (sortReplacements reps) initReplaceState
      (by intro s hs; cases hs) sub hsub
  · intro w durMap st rep target hfile hload hdur hrem
    unfold replaceStep
    rw [hfile, hdur]
    simp [existsK, hload, hrem]

/-- Witness for C3: a concrete run in which one asset of duration 3 covers
segment 0 (target 4, shrunk to 3) and is then exhausted at segment 1,
which is marked for removal. -/
theorem replace_respects_material_duration_witness :
    (⟨0, ["A"], ⟨0, 3⟩⟩ : Substitution) ∈
      (replaceRun ⟨fun _ => .file, fun _ => 3, fun _ => false, false, []⟩
        (fun i => if i ≤ 1 then some 4 else none)
        [⟨0, ["A"]⟩, ⟨1, ["A"]⟩]).1.subs ∧
    (0 : Int) + 3 ≤ (3 : Int) ∧
    replaceStep ⟨fun _ => .file, fun _ => 3, fun _ => false, false, []⟩
        (fun i => if i ≤ 1 then some 4 else none)
        ⟨fun _ => 3, [], []⟩ ⟨1, ["A"]⟩ =
      .ok ⟨fun _ => 3, [1], []⟩ := by
  refine ⟨by decide, ?_, ?_⟩
  · exact replace_respects_material_duration.1
      ⟨fun _ => .file, fun _ => 3, fun _ => false, false, []⟩
      (fun i => if i ≤ 1 then some 4 else none)
      [⟨0, ["A"]⟩, ⟨1, ["A"]⟩] ⟨0, ["A"], ⟨0, 3⟩⟩ (by decide)
  · exact replace_respects_material_duration.2
      ⟨fun _ => .file, fun _ => 3, fun _ => false, false, []⟩
      (fun i => if i ≤ 1 then some 4 else none)
      ⟨fun _ => 3, [], []⟩ ⟨1, ["A"]⟩ 4 rfl rfl (by decide) (by decide)

lemma sortReplacements_sorted (l : List TemplateReplacement) :
    (sortReplacements l).Sorted (fun a b => a.segment_index ≤ b.segment_index) := by
  haveI : IsTotal TemplateReplacement (fun a b => a.segment_index ≤ b.segment_index) :=
    ⟨fun a b => Nat.le_total _ _⟩
  haveI : IsTrans TemplateReplacement (fun a b => a.segment_index ≤ b.segment_index) :=
    ⟨fun _ _ _ h h' => Nat.le_trans h h'⟩
  exact List.sorted_insertionSort _ l

lemma sortReplacements_perm (l : List TemplateReplacement) :
    List.Perm (sortReplacements l) l :=
  List.perm_insertionSort _ l

lemma sortReplacements_eq_of_perm (l₁ l₂ : List TemplateReplacement)
    (hperm : List.Perm l₁ l₂)
    (hnd : (l₁.map (fun r => r.segment_index)).Nodup) :
    sortReplacements l₁ = sortReplacements l₂ := by
  haveI : IsAntisymm TemplateReplacement (fun a b => a.segment_index < b.segment_index) :=
    ⟨fun a b h h' => absurd h' (Nat.not_lt.mpr (Nat.le_of_lt h))⟩
  have hps : List.Perm (sortReplacements l₁) (sortReplacements l₂) :=
    (sortReplacements_perm l₁).trans (hperm.trans (sortReplacements_perm l₂).symm)
  have strict : ∀ m : List TemplateReplacement, List.Perm m l₁ →
      m.Sorted (fun a b => a.segment_index ≤ b.segment_index) →
      m.Sorted (fun a b => a.segment_index < b.segment_index) := by
    intro m hm hsor
    have hndm : (m.map (fun r => r.segment_index)).Nodup :=
      ((hm.map (fun r => r.segment_index)).nodup_iff).mpr hnd
    have hne : m.Pairwise (fun a b => a.segment_index ≠ b.segment_index) :=
      (List.pairwise_map).mp hndm
    exact (hsor.and hne).imp (fun h => Nat.lt_of_le_of_ne h.1 h.2)
  exact List.eq_of_perm_of_sorted hps
    (strict _ (sortReplacements_perm l₁) (sortReplacements_sorted l₁))
    (strict _ ((sortReplacements_perm l₂).trans hperm.symm) (sortReplacements_sorted l₂))

/-- C4 (amended: the replacement list's segment indices must be pairwise
distinct).  For every two permutations of such a replacement list, the
replacement pass produces the same final per-asset consumption offsets,
the same substitution sequence (hence the same substituted source range
per segment index), the same removal list, and the same error outcome:
the result is invariant under reordering of the replacement input, because
replacements are processed in ascending segment-index order. -/
theorem replace_reorder_invariant (w : World) (durMap : Nat → Option Int)
    (reps₁ reps₂ : List TemplateReplacement)
    (hperm : List.Perm reps₁ reps₂)
    (hnd : (reps₁.map (fun r => r.segment_index)).Nodup) :
    (∀ p : MPath, (replaceRun w durMap reps₁).1.offsets p =
        (replaceRun w durMap reps₂).1.offsets p) ∧
    (replaceRun w durMap reps₁).1.subs = (replaceRun w durMap reps₂).1.subs ∧
    (replaceRun w durMap reps₁).1.removals = (replaceRun w durMap reps₂).1.removals ∧
    (replaceRun w durMap reps₁).2 = (replaceRun w durMap reps₂).2 := by
  have h := sortReplacements_eq_of_perm reps₁ reps₂ hperm hnd
  unfold replaceRun
  rw [h]
  exact ⟨fun _ => rfl, rfl, rfl, rfl⟩

/-- The substitution that is last applied to a given segment index: later
`replace_material_by_seg` calls on the same index override earlier ones,
so this is the segment's effective final source range and material. -/
def finalSub (subs : List Substitution) (idx : Nat) : Option Substitution :=
  (subs.filter (fun s => s.segment_index = idx)).getLast?

/-- Counterexample to C4 as stated (over all replacement lists): when two
replacements share segment index 0 with different assets (duration 5 for
"A", 3 for "B", target duration 4), the two orderings of the input list
are permutations of each other, yet the effective final substitution for
segment 0 differs — Python's stable sort keeps equal-index entries in
input order, so the last write to the segment depends on the request
ordering. -/
theorem replace_reorder_counterexample :
    List.Perm ([⟨0, ["A"]⟩, ⟨0, ["B"]⟩] : List TemplateReplacement) [⟨0, ["B"]⟩, ⟨0, ["A"]⟩] ∧
    finalSub (replaceRun
        ⟨fun _ => .file, fun p => if p = ["A"] then 5 else 3, fun _ => false, false, []⟩
        (fun i => if i = 0 then some 4 else none)
        [⟨0, ["A"]⟩, ⟨0, ["B"]⟩]).1.subs 0 ≠
      finalSub (replaceRun
        ⟨fun _ => .file, fun p => if p = ["A"] then 5 else 3, fun _ => false, false, []⟩
        (fun i => if i = 0 then some 4 else none)
        [⟨0, ["B"]⟩, ⟨0, ["A"]⟩]).1.subs 0 := by
  exact ⟨by decide, by decide⟩

/-- Witness for C4: two distinct-index replacements processed in either
input order give identical substitution sequences. -/
theorem replace_reorder_invariant_witness :
    List.Perm ([⟨0, ["A"]⟩, ⟨1, ["A"]⟩] : List TemplateReplacement) [⟨1, ["A"]⟩, ⟨0, ["A"]⟩] ∧
    (replaceRun ⟨fun _ => .file, fun _ => 5, fun _ => false, false, []⟩
        (fun i => if i ≤ 1 then some 2 else none) [⟨0, ["A"]⟩, ⟨1, ["A"]⟩]).1.subs =
      (replaceRun ⟨fun _ => .file, fun _ => 5, fun _ => false, false, []⟩
        (fun i => if i ≤ 1 then some 2 else none) [⟨1, ["A"]⟩, ⟨0, ["A"]⟩]).1.subs := by
  refine ⟨by decide, ?_⟩
  exact (replace_reorder_invariant
    ⟨fun _ => .file, fun _ => 5, fun _ => false, false, []⟩
    (fun i => if i ≤ 1 then some 2 else none)
    [⟨0, ["A"]⟩, ⟨1, ["A"]⟩] [⟨1, ["A"]⟩, ⟨0, ["A"]⟩]
    (by decide) (by decide)).2.1

/-- Model of `_remove_segments_by_index` (service.py lines 419-424): for each index
of `sorted(set(indices), reverse=True)` — descending order, duplicates
collapsed — delete the segment at that position if it is in bounds,
silently skipping it otherwise.  (The `0 <= index` half of the bounds
guard is vacuous here because segment indices are naturals, as guaranteed
by the request model's `ge=0` validation.) -/
def removeSegmentsByIndex {α : Type} (segs : List α) (indices : List Nat) : List α :=
  ((indices.dedup).insertionSort (fun a b => b ≤ a)).foldl
    (fun acc i => if i < acc.length then acc.eraseIdx i else acc) segs

/-- The claim's characterisation of the removal, stated from the spec's
words: keep exactly the segments whose position in the original list
(counted from `start`) is not a marked index, preserving relative order;
marked indices beyond the end of the list have no effect. -/
def keptSegments {α : Type} (bad : List Nat) : Nat → List α → List α
  | _, [] => []
  | pos, a :: t =>
    if pos ∈ bad then keptSegments bad (pos + 1) t
    else a :: keptSegments bad (pos + 1) t

lemma keptSegments_append {α : Type} (bad : List Nat) :
    ∀ (l₁ l₂ : List α) (s : Nat),
      keptSegments bad s (l₁ ++ l₂) =
        keptSegments bad s l₁ ++ keptSegments bad (s + l₁.length) l₂ := by
  intro l₁
  induction l₁ with
  | nil => intro l₂ s; simp [keptSegments]
  | cons a t ih =>
    intro l₂ s
    have harith : s + 1 + t.length = s + (t.length + 1) := by omega
    by_cases h : s ∈ bad
    · simp only [List.cons_append, keptSegments, if_pos h, List.append_eq, List.length_cons]
      rw [ih l₂ (s + 1), harith]
    · simp only [List.cons_append, keptSegments, if_neg h, List.append_eq, List.length_cons]
      rw [ih l₂ (s + 1), harith]

lemma keptSegments_of_all_lt {α : Type} (bad : List Nat) :
    ∀ (l : List α) (s : Nat), (∀ x ∈ bad, x < s) → keptSegments bad s l = l := by
  intro l
  induction l with
  | nil => intro s _; rfl
  | cons a t ih =>
    intro s hlt
    have hs : s ∉ bad := fun hmem => absurd (hlt s hmem) (Nat.lt_irrefl s)
    simp only [keptSegments, if_neg hs]
    rw [ih (s + 1) (fun x hx => Nat.lt_succ_of_lt (hlt x hx))]

lemma keptSegments_congr {α : Type} (bad₁ bad₂ : List Nat) :
    ∀ (l : List α) (s : Nat),
      (∀ n, s ≤ n → n < s + l.length → ((n ∈ bad₁) ↔ (n ∈ bad₂))) →
      keptSegments bad₁ s l = keptSegments bad₂ s l := by
  intro l
  induction l with
  | nil => intro s _; rfl
  | cons a t ih =>
    intro s hiff
    have hs : (s ∈ bad₁) ↔ (s ∈ bad₂) :=
      hiff s (Nat.le_refl s) (by simp [Nat.lt_add_of_pos_right, Nat.succ_pos])
    have ht : keptSegments bad₁ (s + 1) t = keptSegments bad₂ (s + 1) t := by
      refine ih (s + 1) (fun n h1 h2 => hiff n (Nat.le_of_succ_le h1) ?_)
      simp only [List.length_cons] at *
      omega
    by_cases h : s ∈ bad₁
    · simp only [keptSegments, if_pos h, if_pos (hs.mp h), ht]
    · simp only [keptSegments, if_neg h, if_neg (fun h' => h (hs.mpr h')), ht]

lemma removeDesc_eq_kept {α : Type} :
    ∀ (ds : List Nat), ds.Pairwise (fun a b => b < a) →
      ∀ (l : List α),
        ds.foldl (fun acc i => if i < acc.length then acc.eraseIdx i else acc) l =
          keptSegments ds 0 l := by
  intro ds
  induction ds with
  | nil =>
    intro _ l
    simp only [List.foldl_nil]
    exact (keptSegments_of_all_lt [] l 0 (by intro x hx; cases hx)).symm
  | cons d ds ih =>
    intro hpw l
    have hds : ∀ x ∈ ds, x < d := (List.pairwise_cons.mp hpw).1
    have hpw' : ds.Pairwise (fun a b => b < a) := (List.pairwise_cons.mp hpw).2
    show ds.foldl _ (if d < l.length then l.eraseIdx d else l) = keptSegments (d :: ds) 0 l
    by_cases hd : d < l.length
    · rw [if_pos hd, ih hpw']
      have hlen : (l.take d).length = d := by
        simp [List.length_take, Nat.min_eq_left (Nat.le_of_lt hd)]
      have lhs_eq : keptSegments ds 0 (l.eraseIdx d) =
          keptSegments ds 0 (l.take d) ++ l.drop (d + 1) := by
        rw [List.eraseIdx_eq_take_drop_succ, keptSegments_append, hlen, Nat.zero_add]
        rw [keptSegments_of_all_lt ds (l.drop (d + 1)) d (by simpa using hds)]
      have rhs_eq : keptSegments (d :: ds) 0 l =
          keptSegments (d :: ds) 0 (l.take d) ++ l.drop (d + 1) := by
        conv_lhs => rw [← List.take_append_drop d l]
        rw [keptSegments_append, hlen]
        have hdrop : l.drop d = l[d] :: l.drop (d + 1) :=
          List.drop_eq_getElem_cons hd
        rw [hdrop]
        show _ ++ keptSegments (d :: ds) (0 + d) _ = _
        have h0d : 0 + d = d := Nat.zero_add d
        rw [h0d]
        simp only [keptSegments, if_pos (List.mem_cons_self d ds)]
        rw [keptSegments_of_all_lt (d :: ds) (l.drop (d + 1)) (d + 1) ?_]
        intro x hx
        rcases List.mem_cons.mp hx with rfl | hx
        · exact Nat.lt_succ_self x
        · exact Nat.lt_succ_of_lt (hds x hx)
      rw [lhs_eq, rhs_eq]
      congr 1
      refine keptSegments_congr ds (d :: ds) (l.take d) 0 (fun n _ h2 => ?_)
      rw [hlen] at h2
      simp only [Nat.zero_add] at h2
      constructor
      · exact fun h => List.mem_cons_of_mem d h
      · intro h
        rcases List.mem_cons.mp h with rfl | h
        · exact absurd h2 (Nat.lt_irrefl n)
        · exact h
    · rw [if_neg hd, ih hpw']
      refine keptSegments_congr ds (d :: ds) l 0 (fun n _ h2 => ?_)
      simp only [Nat.zero_add] at h2
      have hnd : n ≠ d := fun h => hd (h ▸ h2)
      constructor
      · exact fun h => List.mem_cons_of_mem d h
      · intro h
        rcases List.mem_cons.mp h with rfl | h
        · exact absurd rfl hnd
        · exact h

/-- C8. Deleting the marked indices in descending, deduplicated order is
exactly the positional filter on the original list: each marked in-bounds
position's segment is removed, every other segment survives in its
original relative order, and marked indices outside the list's bounds are
silently ignored. -/
theorem remove_segments_by_index_spec {α : Type} (segs : List α) (indices : List Nat) :
    removeSegmentsByIndex segs indices = keptSegments indices 0 segs := by
  haveI : IsTotal Nat (fun a b => b ≤ a) := ⟨fun a b => (Nat.le_total b a)⟩
  haveI : IsTrans Nat (fun a b => b ≤ a) := ⟨fun _ _ _ h h' => Nat.le_trans h' h⟩
  have hperm : List.Perm ((indices.dedup).insertionSort (fun a b => b ≤ a)) indices.dedup :=
    List.perm_insertionSort _ _
  have hsor : ((indices.dedup).insertionSort (fun a b => b ≤ a)).Sorted (fun a b => b ≤ a) :=
    List.sorted_insertionSort _ _
  have hnd : ((indices.dedup).insertionSort (fun a b => b ≤ a)).Nodup :=
    hperm.nodup_iff.mpr (List.nodup_dedup indices)
  have hpw : ((indices.dedup).insertionSort (fun a b => b ≤ a)).Pairwise (fun a b => b < a) :=
    (hsor.and hnd).imp (fun h => Nat.lt_of_le_of_ne h.1 (fun hba => h.2 hba.symm))
  unfold removeSegmentsByIndex
  rw [removeDesc_eq_kept _ hpw segs]
  refine keptSegments_congr _ indices segs 0 (fun n _ _ => ?_)
  rw [hperm.mem_iff, List.mem_dedup]

/-- A raw material entry of `script.imported_materials` (an untyped dict in
the source): the `id`, `material_id` and `path` fields, each possibly
absent. -/
structure RawMaterial where
  idField : Option String
  materialIdField : Option String
  path : Option String
deriving DecidableEq

/-- Python truthiness of an optional string field: absent and `""` are
falsy. -/
def strTruthy : Option String → Bool
  | none => false
  | some s => s != ""

/-- Model of `_material_id(material)`: `material.get("id") or
material.get("material_id")` — the `id` field when truthy, otherwise the
`material_id` field (whatever it is, possibly falsy). -/
def materialIdOf (m : RawMaterial) : Option String :=
  if strTruthy m.idField then m.idField else m.materialIdField

/-- The `_material_id` value filtered through the caller's `if material_id:`
truthiness test: the identifier actually recorded into `missing_ids`. -/
def truthyIdOf (m : RawMaterial) : Option String :=
  match materialIdOf m with
  | none => none
  | some i => if i = "" then none else some i

/-- Outcome of `Path(path_value).expanduser().exists()` for a material
path string: the file exists, does not exist, or the check raises
`OSError`. -/
inductive FsRes
  | present
  | missing
  | oserr
deriving DecidableEq

/-- Model of `_is_missing(material)` (service.py lines 347-354): a falsy `path`
field is never missing; otherwise the material is missing when its path
does not exist, and an `OSError` from the existence check is conservatively
treated as missing. -/
def isMissing (fs : String → FsRes) (m : RawMaterial) : Bool :=
  match m.path with
  | none => false
  | some p =>
    if p = "" then false
    else
      match fs p with
      | .present => false
      | .missing => true
      | .oserr => true

/-- The three `imported_materials` collections the collector scans. -/
structure Inventory where
  videos : List RawMaterial
  audios : List RawMaterial
  images : List RawMaterial
deriving DecidableEq

/-- Imported track type (`track.track_type`); only video and audio tracks
have their segments pruned. -/
inductive TrackKind
  | video
  | audio
  | text
  | sticker
deriving DecidableEq

/-- A segment of an imported track: its `material_id` attribute (`none`
models `getattr(seg, "material_id", None)` for segments without the
attribute) plus an opaque tag distinguishing otherwise-equal segments. -/
structure ImpSeg where
  materialId : Option String
  tag : Nat
deriving DecidableEq

/-- An imported track: its type and ordered segments.  (Tracks without a
`segments` attribute are skipped by the source; every modelled track has
one.) -/
structure ImpTrack where
  kind : TrackKind
  segments : List ImpSeg
deriving DecidableEq

/-- The kept sublist of one material collection: the loop keeps exactly
the not-missing materials, in their original order. -/
def keptMaterials (fs : String → FsRes) (ms : List RawMaterial) : List RawMaterial :=
  ms.filter (fun m => !(isMissing fs m))

/-- The identifiers recorded while scanning one collection: each missing
material contributes its `_material_id` when that value is truthy. -/
def missingIdsOf (fs : String → FsRes) (ms : List RawMaterial) : List String :=
  (ms.filter (fun m => isMissing fs m)).filterMap truthyIdOf

/-- Segment pruning for one track: on video and audio tracks, drop the
segments whose `material_id` is a recorded missing identifier; a segment
without the attribute is kept (`None` is never in the id set); other
track types are untouched. -/
def pruneTrack (missing : List String) (t : ImpTrack) : ImpTrack :=
  if t.kind = .video ∨ t.kind = .audio then
    { t with segments := t.segments.filter (fun s =>
        match s.materialId with
        | none => true
        | some i => !(decide (i ∈ missing))) }
  else t

/-- Model of `_prune_missing_materials` (service.py lines 341-380): filter the
videos/audios/images collections, collect the removed materials' truthy
identifiers, and — unless no identifier was collected (the early
`return`) — drop referencing segments from every video and audio track. -/
def pruneMissingMaterials (fs : String → FsRes) (inv : Inventory)
    (tracks : List ImpTrack) : Inventory × List ImpTrack :=
  let inv' : Inventory :=
    ⟨keptMaterials fs inv.videos, keptMaterials fs inv.audios, keptMaterials fs inv.images⟩
  let missing := missingIdsOf fs inv.videos ++ missingIdsOf fs inv.audios ++
    missingIdsOf fs inv.images
  if missing = [] then (inv', tracks)
  else (inv', tracks.map (pruneTrack missing))

/-- All inventory materials, in collection order. -/
def allMaterials (inv : Inventory) : List RawMaterial :=
  inv.videos ++ inv.audios ++ inv.images

lemma mem_keptMaterials {fs : String → FsRes} {ms : List RawMaterial} {m : RawMaterial} :
    m ∈ keptMaterials fs ms ↔ m ∈ ms ∧ isMissing fs m = false := by
  simp [keptMaterials, List.mem_filter]

lemma mem_missingIdsOf {fs : String → FsRes} {ms : List RawMaterial} {i : String} :
    i ∈ missingIdsOf fs ms ↔
      ∃ m ∈ ms, isMissing fs m = true ∧ truthyIdOf m = some i := by
  simp only [missingIdsOf, List.mem_filterMap, List.mem_filter]
  constructor
  · rintro ⟨m, ⟨hm, hmiss⟩, hid⟩; exact ⟨m, hm, hmiss, hid⟩
  · rintro ⟨m, hm, hmiss, hid⟩; exact ⟨m, ⟨hm, hmiss⟩, hid⟩

lemma mem_allMaterials_pruned {fs : String → FsRes} {inv : Inventory}
    {tracks : List ImpTrack} {m : RawMaterial} :
    m ∈ allMaterials (pruneMissingMaterials fs inv tracks).1 ↔
      m ∈ allMaterials inv ∧ isMissing fs m = false := by
  have hfst : (pruneMissingMaterials fs inv tracks).1 =
      ⟨keptMaterials fs inv.videos, keptMaterials fs inv.audios,
        keptMaterials fs inv.images⟩ := by
    unfold pruneMissingMaterials
    dsimp only
    split <;> rfl
  rw [hfst]
  simp only [allMaterials, List.mem_append, mem_keptMaterials]
  tauto

lemma pruneMissingMaterials_tracks (fs : String → FsRes) (inv : Inventory)
    (tracks : List ImpTrack) :
    (pruneMissingMaterials fs inv tracks).2 = tracks ∨
    (pruneMissingMaterials fs inv tracks).2 =
      tracks.map (pruneTrack (missingIdsOf fs inv.videos ++ missingIdsOf fs inv.audios ++
        missingIdsOf fs inv.images)) := by
  unfold pruneMissingMaterials
  dsimp only
  split
  · exact Or.inl rfl
  · exact Or.inr rfl

lemma missing_mem_concat {fs : String → FsRes} {inv : Inventory} {m : RawMaterial} {i : String}
    (hm : m ∈ allMaterials inv) (hmiss : isMissing fs m = true)
    (hid : truthyIdOf m = some i) :
    i ∈ missingIdsOf fs inv.videos ++ missingIdsOf fs inv.audios ++
      missingIdsOf fs inv.images := by
  simp only [allMaterials, List.mem_append] at hm
  simp only [List.mem_append, mem_missingIdsOf]
  rcases hm with (hm | hm) | hm
  · exact Or.inl (Or.inl ⟨m, hm, hmiss, hid⟩)
  · exact Or.inl (Or.inr ⟨m, hm, hmiss, hid⟩)
  · exact Or.inr ⟨m, hm, hmiss, hid⟩

/-- C6 (amended: materials whose `path` field is absent or empty are
exempt from the on-disk guarantee — they are classified as not missing
and may remain without a backing file).  After the collector runs: every
material remaining in the videos/audios/images collections that has a
non-empty path has that path present on disk (an existence check that
raises is treated as missing, so such materials are removed); and for
every removed material with a (truthy) identifier, no segment on any
video or audio track of the result references that identifier. -/
theorem prune_missing_materials_invariant (fs : String → FsRes) (inv : Inventory)
    (tracks : List ImpTrack) :
    (∀ m ∈ allMaterials (pruneMissingMaterials fs inv tracks).1,
      ∀ p, m.path = some p → p ≠ "" → fs p = .present) ∧
    (∀ m ∈ allMaterials inv, isMissing fs m = true →
      ∀ i, truthyIdOf m = some i →
        ∀ t ∈ (pruneMissingMaterials fs inv tracks).2,
          t.kind = .video ∨ t.kind = .audio →
            ∀ s ∈ t.segments, s.materialId ≠ some i) := by
  constructor
  · intro m hm p hp hpne
    have hkept := (mem_allMaterials_pruned.mp hm).2
    unfold isMissing at hkept
    rw [hp] at hkept
    dsimp only at hkept
    rw [if_neg hpne] at hkept
    cases hfs : fs p with
    | present => rfl
    | missing => rw [hfs] at hkept; simp at hkept
    | oserr => rw [hfs] at hkept; simp at hkept
  · intro m hm hmiss i hid t ht hkind s hs hsid
    have hi := missing_mem_concat hm hmiss hid
    have hne : missingIdsOf fs inv.videos ++ missingIdsOf fs inv.audios ++
        missingIdsOf fs inv.images ≠ [] := by
      intro hnil
      rw [hnil] at hi
      cases hi
    have htracks : (pruneMissingMaterials fs inv tracks).2 =
        tracks.map (pruneTrack (missingIdsOf fs inv.videos ++ missingIdsOf fs inv.audios ++
          missingIdsOf fs inv.images)) := by
      unfold pruneMissingMaterials
      dsimp only
      rw [if_neg hne]
    rw [htracks] at ht
    rcases List.mem_map.mp ht with ⟨t₀, _, rfl⟩
    by_cases hk : t₀.kind = .video ∨ t₀.kind = .audio
    · have hs' : s ∈ t₀.segments.filter (fun s =>
          match s.materialId with
          | none => true
          | some j => !(decide (j ∈ missingIdsOf fs inv.videos ++ missingIdsOf fs inv.audios ++
              missingIdsOf fs inv.images))) := by
        unfold pruneTrack at hs
        rw [if_pos hk] at hs
        exact hs
      have hpred := (List.mem_filter.mp hs').2
      rw [hsid] at hpred
      simp only [Bool.not_eq_true', decide_eq_false_iff_not] at hpred
      exact hpred hi
    · unfold pruneTrack at hkind
      rw [if_neg hk] at hkind
      exact hk hkind

/-- Counterexample to C6 as stated: with no path present on disk, a
material whose `path` field is the empty string survives garbage
collection (it is classified as not missing), yet it has no backing path
that exists on disk — so "every material remaining has a backing path
that exists on disk" fails. -/
theorem prune_missing_materials_counterexample :
    (⟨some "a", none, some ""⟩ : RawMaterial) ∈
      allMaterials (pruneMissingMaterials (fun _ => FsRes.missing)
        ⟨[⟨some "a", none, some ""⟩], [], []⟩ []).1 ∧
    ∀ p, (⟨some "a", none, some ""⟩ : RawMaterial).path = some p →
      (fun _ => FsRes.missing) p ≠ FsRes.present := by
  constructor
  · decide
  · intro p hp
    have h : "" = p := by injection hp
    rw [← h]
    decide

/-- Witness for C6: a present material keeps its on-disk path, and a
removed material's identifier no longer occurs on the pruned video
track. -/
theorem prune_missing_materials_invariant_witness :
    (fun _ => FsRes.present) "v.mp4" = FsRes.present ∧
    (⟨some "b", 0⟩ : ImpSeg).materialId ≠ some "a" := by
  constructor
  · exact (prune_missing_materials_invariant (fun _ => FsRes.present)
      ⟨[⟨some "a", none, some "v.mp4"⟩], [], []⟩ []).1
      ⟨some "a", none, some "v.mp4"⟩ (by decide) "v.mp4" rfl (by decide)
  · exact (prune_missing_materials_invariant (fun _ => FsRes.missing)
      ⟨[⟨some "a", none, some "x"⟩], [], []⟩
      [⟨.video, [⟨some "b", 0⟩]⟩]).2
      ⟨some "a", none, some "x"⟩ (by decide) (by decide) "a" (by decide)
      (pruneTrack ["a"] ⟨.video, [⟨some "b", 0⟩]⟩) (by decide) (by decide)
      ⟨some "b", 0⟩ (by decide)

lemma nodup_filterMap_inj {α β : Type} [DecidableEq α] [DecidableEq β] (f : α → Option β) :
    ∀ (l : List α), (l.filterMap f).Nodup →
      ∀ a ∈ l, ∀ b ∈ l, ∀ i : β, f a = some i → f b = some i → a = b := by
  intro l
  induction l with
  | nil => intro _ a ha; cases ha
  | cons x t ih =>
    intro hnd a ha b hb i hfa hfb
    rw [List.filterMap_cons] at hnd
    rcases List.mem_cons.mp ha with ha' | ha' <;> rcases List.mem_cons.mp hb with hb' | hb'
    · rw [ha', hb']
    · exfalso
      have hfx : f x = some i := ha' ▸ hfa
      rw [hfx] at hnd
      have hy : i ∉ t.filterMap f := (List.nodup_cons.mp hnd).1
      exact hy (List.mem_filterMap.mpr ⟨b, hb', hfb⟩)
    · exfalso
      have hfx : f x = some i := hb' ▸ hfb
      rw [hfx] at hnd
      have hy : i ∉ t.filterMap f := (List.nodup_cons.mp hnd).1
      exact hy (List.mem_filterMap.mpr ⟨a, ha', hfa⟩)
    · cases hfx : f x with
      | none =>
        rw [hfx] at hnd
        exact ih hnd a ha' b hb' i hfa hfb
      | some y =>
        rw [hfx] at hnd
        exact ih (List.nodup_cons.mp hnd).2 a ha' b hb' i hfa hfb

/-- C10. The collector never removes a material whose `path` field is
absent or empty: it is classified as not missing and stays in the
inventory; and — the inventory's identifiers being unique, the data
model's invariant — no segment referencing its identifier is removed from
any track, even though the material has no existing backing file. -/
theorem prune_keeps_pathless (fs : String → FsRes) (inv : Inventory)
    (tracks : List ImpTrack) (m : RawMaterial)
    (hm : m ∈ allMaterials inv)
    (hpath : strTruthy m.path = false)
    (hnd : ((allMaterials inv).filterMap truthyIdOf).Nodup) :
    m ∈ allMaterials (pruneMissingMaterials fs inv tracks).1 ∧
    (∀ t ∈ tracks, ∀ s ∈ t.segments, ∀ i, truthyIdOf m = some i →
      s.materialId = some i →
      ∃ t' ∈ (pruneMissingMaterials fs inv tracks).2, s ∈ t'.segments) := by
  have hnotmiss : isMissing fs m = false := by
    unfold isMissing
    cases hp : m.path with
    | none => rfl
    | some p =>
      rw [hp] at hpath
      unfold strTruthy at hpath
      have hpe : p = "" := by simpa using hpath
      dsimp only
      rw [if_pos hpe]
  refine ⟨mem_allMaterials_pruned.mpr ⟨hm, hnotmiss⟩, ?_⟩
  intro t ht s hs i hid hsid
  have hinot : i ∉ missingIdsOf fs inv.videos ++ missingIdsOf fs inv.audios ++
      missingIdsOf fs inv.images := by
    intro hi
    have hex : ∃ m' ∈ allMaterials inv, isMissing fs m' = true ∧ truthyIdOf m' = some i := by
      simp only [List.mem_append, mem_missingIdsOf] at hi
      rcases hi with (h | h) | h
      · rcases h with ⟨m', hm', hmiss, hid'⟩
        exact ⟨m', by simp [allMaterials, List.mem_append, hm'], hmiss, hid'⟩
      · rcases h with ⟨m', hm', hmiss, hid'⟩
        exact ⟨m', by simp [allMaterials, List.mem_append, hm'], hmiss, hid'⟩
      · rcases h with ⟨m', hm', hmiss, hid'⟩
        exact ⟨m', by simp [allMaterials, List.mem_append, hm'], hmiss, hid'⟩
    rcases hex with ⟨m', hm', hmiss', hid'⟩
    have heq := nodup_filterMap_inj truthyIdOf (allMaterials inv) hnd m hm m' hm' i hid hid'
    rw [← heq, hnotmiss] at hmiss'
    cases hmiss'
  rcases pruneMissingMaterials_tracks fs inv tracks with hcase | hcase
  · rw [hcase]
    exact ⟨t, ht, hs⟩
  · rw [hcase]
    refine ⟨pruneTrack (missingIdsOf fs inv.videos ++ missingIdsOf fs inv.audios ++
      missingIdsOf fs inv.images) t, List.mem_map_of_mem _ ht, ?_⟩
    unfold pruneTrack
    split
    · dsimp only
      refine List.mem_filter.mpr ⟨hs, ?_⟩
      rw [hsid]
      simp only [List.mem_append, not_or] at hinot
      simp [hinot.1.1, hinot.1.2, hinot.2]
    · exact hs

/-- Witness for C10: a pathless material with identifier "keep" survives
pruning while a genuinely missing material is removed, and the segment
referencing "keep" is still on the pruned video track. -/
theorem prune_keeps_pathless_witness :
    (⟨some "keep", none, none⟩ : RawMaterial) ∈
      allMaterials (pruneMissingMaterials (fun _ => FsRes.missing)
        ⟨[⟨some "keep", none, none⟩], [⟨some "gone", none, some "x"⟩], []⟩
        [⟨.video, [⟨some "keep", 0⟩]⟩]).1 ∧
    ∃ t' ∈ (pruneMissingMaterials (fun _ => FsRes.missing)
        ⟨[⟨some "keep", none, none⟩], [⟨some "gone", none, some "x"⟩], []⟩
        [⟨.video, [⟨some "keep", 0⟩]⟩]).2,
      (⟨some "keep", 0⟩ : ImpSeg) ∈ t'.segments := by
  have h := prune_keeps_pathless (fun _ => FsRes.missing)
    ⟨[⟨some "keep", none, none⟩], [⟨some "gone", none, some "x"⟩], []⟩
    [⟨.video, [⟨some "keep", 0⟩]⟩]
    ⟨some "keep", none, none⟩ (by decide) (by decide) (by decide)
  exact ⟨h.1, h.2 ⟨.video, [⟨some "keep", 0⟩]⟩ (by decide) ⟨some "keep", 0⟩ (by decide)
    "keep" (by decide) (by decide)⟩

/-- Draft-level effects a flow performs, in program order: a timeline
mutation (track addition, segment addition/replacement/removal, track
clearing), a run of the material garbage collector
(`_prune_missing_materials`), persisting the draft (`script.save()`), and
the external export call. -/
inductive Event
  | mutate
  | prune
  | save
  | exportCall
deriving DecidableEq

/-- Whether `pre` is an initial segment of the path `p` (component-wise). -/
def pathHasBase : MPath → MPath → Bool
  | [], _ => true
  | _ :: _, [] => false
  | a :: as, b :: bs => a == b && pathHasBase as bs

/-- Model of `shutil.copytree(src, dst)` on the abstract filesystem: afterwards
every path under `dst` answers as the corresponding path under `src`;
all other paths are untouched. -/
def copyTree (fs : MPath → PathKind) (src dst : MPath) : MPath → PathKind :=
  fun p => if pathHasBase dst p then fs (src ++ p.drop dst.length) else fs p

/-- Model of `_materialize_template_draft(drafts_root, template_path, draft_name)`
(service.py lines 301-317): require the template's directory to exist;
fail with `FileExistsError` if `drafts_root/draft_name` already exists —
checked before any copying; otherwise copy the template directory and
verify the copied `draft_content.json` is present.  Returns the
filesystem after the call together with the outcome. -/
def materializeTemplateDraft (fs : MPath → PathKind) (draftsRoot templatePath : MPath)
    (draftName : String) : (MPath → PathKind) × Except JobErr Unit :=
  let templateDir := templatePath.dropLast
  if existsK (fs templateDir) = false then (fs, .error .templateDirNotFound)
  else
    let targetDir := draftsRoot ++ [draftName]
    if existsK (fs targetDir) then (fs, .error .draftAlreadyExists)
    else
      let fs' := copyTree fs templateDir targetDir
      if existsK (fs' (targetDir ++ ["draft_content.json"])) = false then
        (fs', .error .draftJsonMissing)
      else (fs', .ok ())

/-- C7 (amended: provided the template's own directory exists — when that
directory is also missing, the check at the top of the function fires
first and the failure is the template-directory error instead of the
draft-already-exists error).  If the target directory
`drafts_root/draft_name` already exists, materialization fails with the
draft-already-exists error and returns the filesystem unchanged: the
existence check precedes any copying, so the pre-existing draft directory
is never overwritten, merged into, or partially modified. -/
theorem materialize_existing_draft_fails (fs : MPath → PathKind)
    (draftsRoot templatePath : MPath) (draftName : String)
    (htpl : existsK (fs templatePath.dropLast) = true)
    (htgt : existsK (fs (draftsRoot ++ [draftName])) = true) :
    materializeTemplateDraft fs draftsRoot templatePath draftName =
      (fs, .error .draftAlreadyExists) := by
  unfold materializeTemplateDraft
  simp [htpl, htgt]

/-- Concrete filesystem for the C7 witness: template directory and target
draft directory both exist. -/
def c7fs : MPath → PathKind := fun p =>
  if p = ["root", "job"] then .dir else if p = ["tpl"] then .dir else .absent

/-- Witness for C7: with both directories present, materialization is
exactly the unchanged filesystem plus the draft-already-exists error. -/
theorem materialize_existing_draft_fails_witness :
    materializeTemplateDraft c7fs ["root"] ["tpl", "draft_content.json"] "job" =
      (c7fs, .error .draftAlreadyExists) :=
  materialize_existing_draft_fails c7fs ["root"] ["tpl", "draft_content.json"] "job"
    (by decide) (by decide)

/-- Counterexample to C7 as stated (quantifying over every root, template
path and name with an existing target): when the template's directory is
missing while the target exists, the call still fails and still leaves
the filesystem alone, but with the template-directory error, not the
draft-already-exists error. -/
theorem materialize_existing_draft_counterexample :
    (materializeTemplateDraft
      (fun p => if p = ["root", "job"] then PathKind.dir else PathKind.absent)
      ["root"] ["tpl", "draft_content.json"] "job").2 =
        Except.error JobErr.templateDirNotFound ∧
    JobErr.templateDirNotFound ≠ JobErr.draftAlreadyExists := by
  exact ⟨rfl, by decide⟩

/-- Model of `models.CanvasConfig` (both dimensions validated positive upstream). -/
structure CanvasConfig where
  width : Int
  height : Int
deriving DecidableEq

/-- Model of `models.ConcatRequest`, with `options` already reduced to the derived
clip limit in the internal time unit: `_calc_duration_limit` converts the
optional positive float `max_each_video_seconds` to microseconds
(`int(max_seconds * SEC)`); that float-to-int conversion is outside this
integer model, which takes the resulting optional limit as given. -/
structure ConcatRequest where
  job_id : String
  drafts_root : MPath
  output_path : String
  canvas : CanvasConfig
  fps : Nat
  videos : List MPath
  clipLimit : Option Int
deriving DecidableEq

/-- Model of `models.TemplateBaseRequest`. -/
structure TemplateBaseRequest where
  job_id : String
  drafts_root : MPath
  template_name : String
  template_path : Option MPath
  output_path : String
  fps : Nat
  video_track_index : Nat
deriving DecidableEq

/-- Model of `models.TemplateReplaceRequest`. -/
structure TemplateReplaceRequest extends TemplateBaseRequest where
  replacements : List TemplateReplacement
deriving DecidableEq

/-- The `fill_strategy` literal of `models.TemplateFillRequest`:
`"error"` or `"cycle"`. -/
inductive FillStrategy
  | error
  | cycle
deriving DecidableEq

/-- Model of `models.TemplateFillRequest`. -/
structure TemplateFillRequest extends TemplateBaseRequest where
  assets : List MPath
  fill_strategy : FillStrategy
deriving DecidableEq

/-- ASCII lowercasing of one character (`.lower()` on the characters
involved in an extension check). -/
def lowerChar (c : Char) : Char :=
  if 65 ≤ c.toNat ∧ c.toNat ≤ 90 then Char.ofNat (c.toNat + 32) else c

/-- Model of the `output_path.suffix.lower() == ".mp4"` check, on the textual last
component of the output path. -/
def hasMp4Ext (s : String) : Bool :=
  (s.toList.map lowerChar).reverse.take 4 == ['4', 'p', 'm', '.']

/-- Model of `_ensure_drafts_root`: the drafts root must exist and be a
directory. -/
def draftsRootOk (fs : MPath → PathKind) (p : MPath) : Bool :=
  existsK (fs p) && decide (fs p = .dir)

/-- Model of `_ensure_video_files`: each path must exist and be a regular file;
the first offender aborts the flow. -/
def ensureVideoFiles (fs : MPath → PathKind) : List MPath → Except JobErr Unit
  | [] => .ok ()
  | p :: rest =>
    if existsK (fs p) = false then .error .assetNotFound
    else if fs p ≠ .file then .error .assetNotAFile
    else ensureVideoFiles fs rest

/-- Model of `_ensure_media_file` mapped over the fill flow's asset list
(`[_ensure_media_file(path) for path in payload.assets]`). -/
def ensureMediaFiles (fs : MPath → PathKind) : List MPath → Except JobErr Unit
  | [] => .ok ()
  | p :: rest =>
    if existsK (fs p) = false then .error .assetNotFound
    else if fs p ≠ .file then .error .assetNotAFile
    else ensureMediaFiles fs rest

/-- The `TEMPLATE_BASE_DIR` constant: the server package's `data/templates`
directory. -/
def TEMPLATE_BASE_DIR : MPath := ["server", "data", "templates"]

/-- Model of `_resolve_template_path(template_path, template_name)`: the
explicit path when given, else the server template directory entry.  The result is
never `None`, so the `duplicate_as_template` branch of the template flows
(`if template_path is None`) is unreachable and not modelled. -/
def resolveTemplatePath (template_path : Option MPath) (template_name : String) : MPath :=
  match template_path with
  | some p => p
  | none => TEMPLATE_BASE_DIR ++ [template_name, "draft_content.json"]

/-- Model of `_load_template_durations(template_path, track_index)` (service.py
lines 263-292): the template description must exist on disk; the
requested video-track index must be in range; every segment of that track
must carry a `target_timerange.duration`.  Returns the segment-index →
duration map (`None` beyond the track's segment count, matching
`duration_map.get`). -/
def loadTemplateDurations (w : World) (templatePath : MPath) (trackIndex : Nat) :
    Except JobErr (Nat → Option Int) :=
  if existsK (w.fs templatePath) = false then .error .templatePathNotFound
  else
    match w.tplVideoTracks.get? trackIndex with
    | none => .error .trackIndexOutOfRange
    | some segDurs =>
      if segDurs.all (fun d => d.isSome) then
        .ok (fun i => (segDurs.get? i).bind id)
      else .error .segmentDurationMissing

/-- Model of `concat_videos` (service.py lines 47-108), as the ordered draft-level
events it performs plus its outcome: validate the drafts root, the asset
files and the output extension, create the draft and its track
(`.mutate`), run the append loop (`.mutate` per appended segment), guard
against an empty timeline, save, then export. -/
def concatFlow (w : World) (req : ConcatRequest) : List Event × Except JobErr Unit :=
  if draftsRootOk w.fs req.drafts_root = false then ([], .error .invalidDraftsRoot)
  else
    match ensureVideoFiles w.fs req.videos with
    | .error e => ([], .error e)
    | .ok _ =>
      if hasMp4Ext req.output_path = false then ([], .error .badOutputPath)
      else
        let loop := concatLoop w req.clipLimit req.videos 0
        let events := Event.mutate :: loop.1.map (fun _ => Event.mutate)
        match loop.2 with
        | .error e => (events, .error e)
        | .ok cursor =>
          if cursor = 0 then (events, .error .emptyTimeline)
          else if w.exportFails then (events ++ [Event.save], .error .exportFailed)
          else (events ++ [Event.save, Event.exportCall], .ok ())

/-- Model of `template_replace` (service.py lines 111-171): validate root and
output, materialize the template copy (a `FileExistsError` becomes the
draft-already-exists domain error), load the per-segment durations, run
the replacement pass (`.mutate` per applied substitution), delete the
marked segments (`.mutate` when any index was marked), run the garbage
collector, save, export. -/
def templateReplaceFlow (w : World) (req : TemplateReplaceRequest) :
    List Event × Except JobErr Unit :=
  let tpl := resolveTemplatePath req.template_path req.template_name
  if draftsRootOk w.fs req.drafts_root = false then ([], .error .invalidDraftsRoot)
  else if hasMp4Ext req.output_path = false then ([], .error .badOutputPath)
  else
    match (materializeTemplateDraft w.fs req.drafts_root tpl req.job_id).2 with
    | .error e => ([], .error e)
    | .ok _ =>
      let w' := { w with fs := (materializeTemplateDraft w.fs req.drafts_root tpl req.job_id).1 }
      match loadTemplateDurations w' tpl req.video_track_index with
      | .error e => ([], .error e)
      | .ok durMap =>
        let run := replaceRun w' durMap req.replacements
        let mutates := run.1.subs.map (fun _ => Event.mutate)
        match run.2 with
        | some e => (mutates, .error e)
        | none =>
          let events := mutates ++ (if run.1.removals = [] then [] else [Event.mutate])
          if w.exportFails then (events ++ [Event.prune, Event.save], .error .exportFailed)
          else (events ++ [Event.prune, Event.save, Event.exportCall], .ok ())

/-- Model of `template_fill` (service.py lines 174-206): validate root and output,
materialize the template copy, run the garbage collector (`.prune`,
before any timeline mutation), clear every video track's segments
(`.mutate`), existence-check the assets, append them as a fresh uniquely
named track (`.mutate` for the added track plus one per appended
segment), guard against an empty timeline, save, export.  The request's
`fill_strategy` field is never read. -/
def templateFillFlow (w : World) (req : TemplateFillRequest) :
    List Event × Except JobErr Unit :=
  let tpl := resolveTemplatePath req.template_path req.template_name
  if draftsRootOk w.fs req.drafts_root = false then ([], .error .invalidDraftsRoot)
  else if hasMp4Ext req.output_path = false then ([], .error .badOutputPath)
  else
    match (materializeTemplateDraft w.fs req.drafts_root tpl req.job_id).2 with
    | .error e => ([], .error e)
    | .ok _ =>
      let w' := { w with fs := (materializeTemplateDraft w.fs req.drafts_root tpl req.job_id).1 }
      match ensureMediaFiles w'.fs req.assets with
      | .error e => ([Event.prune, Event.mutate], .error e)
      | .ok _ =>
        let loop := concatLoop w' none req.assets 0
        let events := [Event.prune, Event.mutate, Event.mutate] ++
          loop.1.map (fun _ => Event.mutate)
        match loop.2 with
        | .error e => (events, .error e)
        | .ok cursor =>
          if cursor = 0 then (events, .error .emptyTimeline)
          else if w.exportFails then (events ++ [Event.save], .error .exportFailed)
          else (events ++ [Event.save, Event.exportCall], .ok ())

/-- C9. The fill flow's behaviour is independent of `fill_strategy`: for
every world and request, running the flow with one strategy value yields
exactly the same events and outcome as with any other — the field is
carried by the request model but never read by the flow, so the `cycle`
strategy is never exercised. -/
theorem fill_strategy_never_read (w : World) (req : TemplateFillRequest)
    (s₁ s₂ : FillStrategy) :
    templateFillFlow w { req with fill_strategy := s₁ } =
      templateFillFlow w { req with fill_strategy := s₂ } := by
  cases req
  rfl

lemma concatLoop_all_nonpos (w : World) (cap : Option Int) (paths : List MPath)
    (hload : ∀ p ∈ paths, w.loadFails p = false)
    (hnp : ∀ p ∈ paths, usableDur cap (w.matDur p) ≤ 0) :
    (concatLoop w cap paths 0).1 = [] ∧ (concatLoop w cap paths 0).2 = .ok 0 := by
  obtain ⟨h1, h2, _, _⟩ := concatLoop_spec w cap paths 0 hload
  have hfil : (paths.map (fun p => usableDur cap (w.matDur p))).filter
      (fun u => decide (0 < u)) = [] := by
    rw [List.filter_eq_nil_iff]
    intro u hu
    rcases List.mem_map.mp hu with ⟨p, hp, rfl⟩
    simpa using not_lt.mpr (hnp p hp)
  rw [hfil] at h1
  have hnil : (concatLoop w cap paths 0).1 = [] := List.map_eq_nil_iff.mp h1
  refine ⟨hnil, ?_⟩
  rw [h2, hnil]
  simp

/-- C2. When every asset's usable duration is ≤ 0 — so no segment is
appended and the cursor stays 0 — while all earlier validation passes,
the build fails with the empty-timeline domain error and emits no save
event: a zero-segment draft is never persisted.  First conjunct: the
concat flow; second conjunct: the fill flow's append step. -/
theorem empty_timeline_never_persisted :
    (∀ (w : World) (req : ConcatRequest),
      draftsRootOk w.fs req.drafts_root = true →
      ensureVideoFiles w.fs req.videos = .ok () →
      hasMp4Ext req.output_path = true →
      (∀ p ∈ req.videos, w.loadFails p = false) →
      (∀ p ∈ req.videos, usableDur req.clipLimit (w.matDur p) ≤ 0) →
      (concatFlow w req).2 = .error .emptyTimeline ∧
        Event.save ∉ (concatFlow w req).1) ∧
    (∀ (w : World) (req : TemplateFillRequest),
      draftsRootOk w.fs req.drafts_root = true →
      hasMp4Ext req.output_path = true →
      (materializeTemplateDraft w.fs req.drafts_root
        (resolveTemplatePath req.template_path req.template_name) req.job_id).2 = .ok () →
      ensureMediaFiles (materializeTemplateDraft w.fs req.drafts_root
        (resolveTemplatePath req.template_path req.template_name) req.job_id).1
        req.assets = .ok () →
      (∀ p ∈ req.assets, w.loadFails p = false) →
      (∀ p ∈ req.assets, w.matDur p ≤ 0) →
      (templateFillFlow w req).2 = .error .emptyTimeline ∧
        Event.save ∉ (templateFillFlow w req).1) := by
  constructor
  · intro w req hroot hvids hmp4 hload hnp
    obtain ⟨h1, h2⟩ := concatLoop_all_nonpos w req.clipLimit req.videos hload hnp
    have hflow : concatFlow w req = ([Event.mutate], .error .emptyTimeline) := by
      unfold concatFlow
      rw [hroot, hvids, hmp4]
      dsimp only
      rw [h1, h2]
      simp
    rw [hflow]
    exact ⟨rfl, by decide⟩
  · intro w req hroot hmp4 hmat hmedia hload hnp
    have hload' : ∀ p ∈ req.assets,
        (World.mk (materializeTemplateDraft w.fs req.drafts_root
          (resolveTemplatePath req.template_path req.template_name) req.job_id).1
          w.matDur w.loadFails w.exportFails w.tplVideoTracks).loadFails p = false := hload
    have hnp' : ∀ p ∈ req.assets, usableDur none
        ((World.mk (materializeTemplateDraft w.fs req.drafts_root
          (resolveTemplatePath req.template_path req.template_name) req.job_id).1
          w.matDur w.loadFails w.exportFails w.tplVideoTracks).matDur p) ≤ 0 := hnp
    obtain ⟨h1, h2⟩ := concatLoop_all_nonpos _ none req.assets hload' hnp'
    have hflow : templateFillFlow w req =
        ([Event.prune, Event.mutate, Event.mutate], .error .emptyTimeline) := by
      unfold templateFillFlow
      rw [hroot, hmp4]
      dsimp only
      rw [hmat]
      dsimp only
      rw [hmedia]
      dsimp only
      rw [h1, h2]
      simp
    rw [hflow]
    exact ⟨rfl, by decide⟩

/-- Concrete world for the C2 witness, concat side: one loadable video of
duration 0. -/
def c2cw : World :=
  ⟨fun p => if p = ["r"] then .dir else if p = ["v"] then .file else .absent,
    fun _ => 0, fun _ => false, false, []⟩

/-- Concrete request for the C2 witness, concat side. -/
def c2creq : ConcatRequest := ⟨"j", ["r"], "o.mp4", ⟨1, 1⟩, 30, [["v"]], none⟩

/-- Concrete world for the C2 witness, fill side: template present, one
asset of duration 0. -/
def c2fw : World :=
  ⟨fun p => if p = ["r"] then .dir else if p = ["t"] then .dir
    else if p = ["t", "draft_content.json"] then .file
    else if p = ["a"] then .file else .absent,
    fun _ => 0, fun _ => false, false, [[some 4]]⟩

/-- Concrete request for the C2 witness, fill side. -/
def c2freq : TemplateFillRequest :=
  ⟨⟨"j", ["r"], "tpl", some ["t", "draft_content.json"], "o.mp4", 30, 0⟩, [["a"]], .error⟩

/-- Witness for C2: both flows, run at the concrete zero-duration inputs,
fail with the empty-timeline error and never emit a save event. -/
theorem empty_timeline_never_persisted_witness :
    ((concatFlow c2cw c2creq).2 = .error .emptyTimeline ∧
      Event.save ∉ (concatFlow c2cw c2creq).1) ∧
    ((templateFillFlow c2fw c2freq).2 = .error .emptyTimeline ∧
      Event.save ∉ (templateFillFlow c2fw c2freq).1) := by
  constructor
  · exact empty_timeline_never_persisted.1 c2cw c2creq rfl rfl (by decide)
      (by decide) (by decide)
  · exact empty_timeline_never_persisted.2 c2fw c2freq rfl (by decide) rfl rfl
      (by decide) (by decide)

lemma mem_map_const_mutate {α : Type} {l : List α} {e : Event}
    (h : e ∈ l.map (fun _ => Event.mutate)) : e = Event.mutate := by
  rcases List.mem_map.mp h with ⟨a, _, h2⟩
  exact h2.symm

lemma prune_not_mem_concat_events (l : List Timerange) (tail : List Event)
    (htail : Event.prune ∉ tail) :
    Event.prune ∉ Event.mutate :: l.map (fun _ => Event.mutate) ++ tail := by
  intro h
  rcases List.mem_cons.mp h with h | h
  · exact Event.noConfusion h
  · rcases List.mem_append.mp h with h | h
    · exact Event.noConfusion (mem_map_const_mutate h)
    · exact htail h

lemma prune_not_mem_concat_events' (l : List Timerange) :
    Event.prune ∉ Event.mutate :: l.map (fun _ => Event.mutate) := by
  intro h
  rcases List.mem_cons.mp h with h | h
  · exact Event.noConfusion h
  · exact Event.noConfusion (mem_map_const_mutate h)

lemma concatFlow_no_prune (w : World) (req : ConcatRequest) :
    Event.prune ∉ (concatFlow w req).1 := by
  intro he
  unfold concatFlow at he
  split at he
  · simp at he
  · split at he
    · simp at he
    · split at he
      · simp at he
      · dsimp only at he
        split at he
        · exact prune_not_mem_concat_events' _ he
        · split at he
          · exact prune_not_mem_concat_events' _ he
          · split at he
            · exact prune_not_mem_concat_events _ [Event.save] (by decide) he
            · exact prune_not_mem_concat_events _ [Event.save, Event.exportCall]
                (by decide) he

lemma all_mutate_pre (subs : List Substitution) (removals : List Nat) :
    ∀ e ∈ subs.map (fun _ => Event.mutate) ++
        (if removals = [] then ([] : List Event) else [Event.mutate]),
      e = Event.mutate := by
  intro e h
  rcases List.mem_append.mp h with h | h
  · exact mem_map_const_mutate h
  · split at h
    · simp at h
    · exact List.mem_singleton.mp h

lemma replaceFlow_success_shape (w : World) (req : TemplateReplaceRequest)
    (hok : (templateReplaceFlow w req).2 = .ok ()) :
    ∃ pre, (templateReplaceFlow w req).1 =
        pre ++ [Event.prune, Event.save, Event.exportCall] ∧
      Event.prune ∉ pre ∧ Event.save ∉ pre := by
  unfold templateReplaceFlow at hok ⊢
  dsimp only at hok ⊢
  split at hok
  · exact absurd hok (by simp)
  next h1 =>
    rw [if_neg h1]
    split at hok
    · exact absurd hok (by simp)
    next h2 =>
      rw [if_neg h2]
      split at hok
      · exact absurd hok (by simp)
      next u heq =>
        split at hok
        · exact absurd hok (by simp)
        next durMap heq2 =>
          split at hok
          · exact absurd hok (by simp)
          next heq3 =>
            split at hok
            · exact absurd hok (by simp)
            next h4 =>
              rw [if_neg h4]
              refine ⟨_, rfl, ?_, ?_⟩
              · intro h
                exact Event.noConfusion (all_mutate_pre _ _ _ h)
              · intro h
                exact Event.noConfusion (all_mutate_pre _ _ _ h)

lemma fillFlow_success_shape (w : World) (req : TemplateFillRequest)
    (hok : (templateFillFlow w req).2 = .ok ()) :
    ∃ mids, (templateFillFlow w req).1 =
        Event.prune :: mids ++ [Event.save, Event.exportCall] ∧
      ∀ e ∈ mids, e = Event.mutate := by
  unfold templateFillFlow at hok ⊢
  dsimp only at hok ⊢
  split at hok
  · exact absurd hok (by simp)
  next h1 =>
    rw [if_neg h1]
    split at hok
    · exact absurd hok (by simp)
    next h2 =>
      rw [if_neg h2]
      split at hok
      · exact absurd hok (by simp)
      next u heq =>
        split at hok
        · exact absurd hok (by simp)
        next u2 heq2 =>
          split at hok
          · exact absurd hok (by simp)
          next cursor heq3 =>
            split at hok
            · exact absurd hok (by simp)
            next h4 =>
              rw [if_neg h4]
              split at hok
              · exact absurd hok (by simp)
              next h5 =>
                rw [if_neg h5]
                refine ⟨Event.mutate :: Event.mutate ::
                  (concatLoop { w with fs := (materializeTemplateDraft w.fs req.drafts_root
                    (resolveTemplatePath req.template_path req.template_name)
                    req.job_id).1 } none req.assets 0).1.map (fun _ => Event.mutate),
                  rfl, ?_⟩
                intro e h
                rcases List.mem_cons.mp h with rfl | h
                · rfl
                · rcases List.mem_cons.mp h with rfl | h
                  · rfl
                  · exact mem_map_const_mutate h

/-- C5 (amended: the garbage collector runs before persistence only in
the two template flows, and its position relative to the timeline
mutations differs between them — in template_replace it runs after all
timeline mutations and immediately before save, in template_fill it runs
before the flow's timeline mutations — while the concat flow never runs
the collector at all). -/
theorem gc_ordering_per_flow :
    (∀ (w : World) (req : ConcatRequest), Event.prune ∉ (concatFlow w req).1) ∧
    (∀ (w : World) (req : TemplateReplaceRequest),
      (templateReplaceFlow w req).2 = .ok () →
      ∃ pre, (templateReplaceFlow w req).1 =
          pre ++ [Event.prune, Event.save, Event.exportCall] ∧
        Event.prune ∉ pre ∧ Event.save ∉ pre) ∧
    (∀ (w : World) (req : TemplateFillRequest),
      (templateFillFlow w req).2 = .ok () →
      ∃ mids, (templateFillFlow w req).1 =
          Event.prune :: mids ++ [Event.save, Event.exportCall] ∧
        ∀ e ∈ mids, e = Event.mutate) :=
  ⟨concatFlow_no_prune, replaceFlow_success_shape, fillFlow_success_shape⟩

/-- Concrete world for the C5 counterexample: a valid concat request
whose flow succeeds. -/
def c5cw : World :=
  ⟨fun p => if p = ["r"] then .dir else if p = ["v"] then .file else .absent,
    fun _ => 5, fun _ => false, false, []⟩

/-- Concrete concat request for the C5 counterexample. -/
def c5creq : ConcatRequest := ⟨"j", ["r"], "o.mp4", ⟨1, 1⟩, 30, [["v"]], none⟩

/-- Counterexample to C5 as stated: the concat flow is a mutating flow
that runs to a successful save and export, yet its event trace contains
no garbage-collector run at all — `concat_videos` never calls
`_prune_missing_materials`. -/
theorem gc_ordering_counterexample :
    (concatFlow c5cw c5creq).2 = .ok () ∧
    Event.save ∈ (concatFlow c5cw c5creq).1 ∧
    Event.prune ∉ (concatFlow c5cw c5creq).1 := by
  refine ⟨rfl, by decide, by decide⟩

/-- Concrete world for the C5 witness, replace side. -/
def c5rw : World :=
  ⟨fun p => if p = ["r"] then .dir else if p = ["t"] then .dir
    else if p = ["t", "draft_content.json"] then .file
    else if p = ["m"] then .file else .absent,
    fun _ => 5, fun _ => false, false, [[some 4]]⟩

/-- Concrete replace request for the C5 witness. -/
def c5rreq : TemplateReplaceRequest :=
  ⟨⟨"j", ["r"], "tpl", some ["t", "draft_content.json"], "o.mp4", 30, 0⟩, [⟨0, ["m"]⟩]⟩

/-- Concrete world for the C5 witness, fill side. -/
def c5fw : World :=
  ⟨fun p => if p = ["r"] then .dir else if p = ["t"] then .dir
    else if p = ["t", "draft_content.json"] then .file
    else if p = ["a"] then .file else .absent,
    fun _ => 3, fun _ => false, false, [[some 4]]⟩

/-- Concrete fill request for the C5 witness. -/
def c5freq : TemplateFillRequest :=
  ⟨⟨"j", ["r"], "tpl", some ["t", "draft_content.json"], "o.mp4", 30, 0⟩, [["a"]], .error⟩

/-- Witness for C5's amended ordering statement, applied at concrete
successful replace and fill runs. -/
theorem gc_ordering_per_flow_witness :
    (∃ pre, (templateReplaceFlow c5rw c5rreq).1 =
        pre ++ [Event.prune, Event.save, Event.exportCall] ∧
      Event.prune ∉ pre ∧ Event.save ∉ pre) ∧
    (∃ mids, (templateFillFlow c5fw c5freq).1 =
        Event.prune :: mids ++ [Event.save, Event.exportCall] ∧
      ∀ e ∈ mids, e = Event.mutate) :=
  ⟨gc_ordering_per_flow.2.1 c5rw c5rreq rfl, gc_ordering_per_flow.2.2 c5fw c5freq rfl⟩
